import Mathlib

/-!
Shallow embedding of the SentraAI retrieval core (src/main.cpp) and proofs of
the specification claims.  C++ `std::string` values are modelled as lists of
characters (`Str`); `std::size_t` / `int` counters as `Nat`; fallible
operations (C++ `throw std::runtime_error`) as `Except String`, carrying the
exact message texts of the source.  Floating-point values are modelled as real
numbers where their arithmetic matters (cosine similarity, search scoring) and
as raw 32-bit words where only their bit patterns matter (binary persistence,
which copies the 4 bytes of each float verbatim).
-/

namespace SentraAI

/-- Strings are modelled as lists of characters. -/
abbrev Str := List Char

/-- Embedding of `struct Document` from main.cpp: id, source path, content. -/
structure Document where
  id : Str
  sourcePath : Str
  content : Str
  deriving DecidableEq, Inhabited, Repr

/-- Embedding of `struct IndexEntry` from main.cpp, parameterised by the
scalar type used for the embedding vector (real numbers for arithmetic
claims, 32-bit words for persistence claims). -/
structure IndexEntry (α : Type) where
  doc : Document
  embedding : List α
  deriving DecidableEq, Inhabited, Repr

/-! ### Chunker (loadDocuments, main.cpp lines 386–423)

The chunking loop searches for the literal two-character separator `"\n\n"`
(`content.find("\n\n", pos)`), takes the text strictly before it, keeps it if
non-empty, and continues after the separator; the text after the last
separator is the final chunk, also kept only if non-empty. -/

/-- First occurrence of the separator `"\n\n"`: the part strictly before the
first occurrence and the part strictly after it, or `none` when the separator
does not occur (mirrors `content.find("\n\n", pos)`). -/
def splitNN : Str → Option (Str × Str)
  | [] => none
  | [_] => none
  | c1 :: c2 :: rest =>
    if c1 = '\n' ∧ c2 = '\n' then some ([], rest)
    else (splitNN (c2 :: rest)).map (fun p => (c1 :: p.1, p.2))

/-- The chunking loop of `loadDocuments`, with an explicit fuel argument for
structural recursion.  Every loop iteration consumes the chunk and a
two-character separator, so fuel `s.length` (used by `cppChunks`) always
suffices; the fuel-0 branch coincides with the no-separator branch and is
reachable only for the empty string. -/
def cppChunksF : Nat → Str → List Str
  | 0, s => if s.isEmpty then [] else [s]
  | fuel + 1, s =>
    match splitNN s with
    | none => if s.isEmpty then [] else [s]
    | some (pre, post) =>
      if pre.isEmpty then cppChunksF fuel post else pre :: cppChunksF fuel post

/-- The chunking loop of `loadDocuments` applied to one document content:
split on the separator `"\n\n"`, drop empty chunks, keep the trailing chunk. -/
def cppChunks (s : Str) : List Str := cppChunksF s.length s

/-- Specification-level split of a string on the separator `"\n\n"`, keeping
empty parts (fuelled like `cppChunksF`). -/
def splitOnNNF : Nat → Str → List Str
  | 0, s => [s]
  | fuel + 1, s =>
    match splitNN s with
    | none => [s]
    | some (pre, post) => pre :: splitOnNNF fuel post

/-- Split of a string on the separator `"\n\n"`, keeping empty parts (used to
state what `cppChunks` keeps and drops). -/
def splitOnNN (s : Str) : List Str := splitOnNNF s.length s

/-- Chunk id assignment: `"doc-" + std::to_string(docCounter++)`. -/
def mkId (n : Nat) : Str := ("doc-" ++ toString n).toList

/-- The inner loop of `loadDocuments`: each kept chunk of one file becomes a
`Document` with the next sequential id. -/
def assignIds (ctr : Nat) (path : Str) : List Str → List Document
  | [] => []
  | c :: cs => ⟨mkId ctr, path, c⟩ :: assignIds (ctr + 1) path cs

/-- The outer loop of `loadDocuments` over the files of the data directory
(directory traversal itself is an external collaborator; a file is the pair
of its path and its content).  Files with empty content are skipped; the
chunk counter runs across the whole corpus. -/
def loadDocsGo : List (Str × Str) → Nat → List Document
  | [], _ => []
  | (path, content) :: rest, ctr =>
    if content.isEmpty then loadDocsGo rest ctr
    else
      assignIds ctr path (cppChunks content)
        ++ loadDocsGo rest (ctr + (cppChunks content).length)

/-- Embedding of `loadDocuments` (main.cpp lines 386–423) over an in-memory
file collection. -/
def loadDocuments (files : List (Str × Str)) : List Document :=
  loadDocsGo files 0

/-! ### Context assembly (SentraEngine::answer, main.cpp lines 459–491) -/

/-- The literal ellipsis marker `"..."` appended after a truncation. -/
def ellipsis : Str := ['.', '.', '.']

/-- `MAX_TOTAL_CHARS` of SentraEngine::answer. -/
def MAX_TOTAL_CHARS : Nat := 3000

/-- `MAX_CHARS_PER_CHUNK` of SentraEngine::answer. -/
def MAX_CHARS_PER_CHUNK : Nat := 800

/-- The per-chunk cap of SentraEngine::answer: contents longer than
`MAX_CHARS_PER_CHUNK` are cut to exactly that many characters and the
ellipsis marker is appended. -/
def perChunkCap (c : Str) : Str :=
  if c.length > MAX_CHARS_PER_CHUNK then c.take MAX_CHARS_PER_CHUNK ++ ellipsis else c

/-- Decoration of a piece: `"[" + d.sourcePath + "]\n" + chunk`. -/
def deco (path chunk : Str) : Str := '[' :: (path ++ ']' :: '\n' :: chunk)

/-- The context-building loop of SentraEngine::answer (lines 466–491):
`total` is the accumulated `total_chars`.  Mirrors the source exactly,
including the global-cap branch that compares `total_chars + chunk.size()`
(the undecorated chunk) against `MAX_TOTAL_CHARS` while `total_chars` itself
accumulates decorated lengths, and the dead `remaining == 0` break. -/
def assembleLoop : List Document → Nat → List Str
  | [], _ => []
  | d :: rest, total =>
    if total ≥ MAX_TOTAL_CHARS then []
    else
      let chunk0 := perChunkCap d.content
      if total + chunk0.length > MAX_TOTAL_CHARS then
        let remaining := MAX_TOTAL_CHARS - total
        if remaining > 0 ∧ remaining < chunk0.length then
          let decorated := deco d.sourcePath (chunk0.take remaining ++ ellipsis)
          decorated :: assembleLoop rest (total + decorated.length)
        else if remaining = 0 then []
        else
          let decorated := deco d.sourcePath chunk0
          decorated :: assembleLoop rest (total + decorated.length)
      else
        let decorated := deco d.sourcePath chunk0
        decorated :: assembleLoop rest (total + decorated.length)

/-- The bounded context built by SentraEngine::answer from the ranked chunks
returned by search. -/
def assembleContext (docs : List Document) : List Str :=
  assembleLoop docs 0

/-- Total length of the emitted decorated pieces. -/
def totalLen (pieces : List Str) : Nat := (pieces.map List.length).sum

/-! ### VectorIndex::build (main.cpp lines 201–250) -/

/-- Reference dimension: the length of the first non-empty embedding, `0`
when every embedding is empty (the `refDim` loop of build). -/
def firstNonEmptyLen : List (List ℝ) → Nat
  | [] => 0
  | e :: rest => if e.isEmpty then firstNonEmptyLen rest else e.length

/-- The filtering loop of build: drop a pair when its embedding is empty or
its length differs from the reference dimension, keep the rest in order. -/
def buildEntries (refDim : Nat) : List Document → List (List ℝ) → List (IndexEntry ℝ)
  | d :: docs, e :: embs =>
    if e.isEmpty then buildEntries refDim docs embs
    else if e.length ≠ refDim then buildEntries refDim docs embs
    else ⟨d, e⟩ :: buildEntries refDim docs embs
  | _, _ => []

/-- Embedding of `VectorIndex::build` (main.cpp lines 201–250). -/
def build (docs : List Document) (embeddings : List (List ℝ)) :
    Except String (List (IndexEntry ℝ)) :=
  if docs.isEmpty then .error "No documents to build index."
  else if docs.length ≠ embeddings.length then .error "Docs and embeddings size mismatch"
  else
    let refDim := firstNonEmptyLen embeddings
    if refDim = 0 then .error "All embeddings are empty."
    else
      let entries := buildEntries refDim docs embeddings
      if entries.isEmpty then .error "No valid entries after filtering embeddings."
      else .ok entries

/-! ### Binary persistence (VectorIndex::saveToDisk / loadFromDisk,
main.cpp lines 253–323)

Floats are carried as their 32-bit patterns (`Nat < 2^32`); the file writes
each float's 4 bytes in little-endian order, exactly as the source's raw
`write`/`read` of `float` blocks does on a little-endian platform.  The JSON
metadata array round-trips the three strings of each entry losslessly, so it
is modelled as the list of `Document` records in store order. -/

/-- The 4 little-endian bytes of a 32-bit value (`uint32_t` and `float` bit
patterns; values ≥ 2^32 are truncated exactly as the `uint32_t` casts in
saveToDisk do). -/
def u32le (n : Nat) : List Nat :=
  [n % 256, n / 256 % 256, n / 65536 % 256, n / 16777216 % 256]

/-- Recompose a 32-bit value from 4 little-endian bytes. -/
def bytesToU32 (b0 b1 b2 b3 : Nat) : Nat :=
  b0 + 256 * b1 + 65536 * b2 + 16777216 * b3

/-- Group a byte list into consecutive 32-bit words (the reinterpretation of
a raw byte buffer as a `float` array). -/
def bytesToWords : List Nat → List Nat
  | b0 :: b1 :: b2 :: b3 :: rest => bytesToU32 b0 b1 b2 b3 :: bytesToWords rest
  | _ => []

/-- The byte content of the binary vector file written by saveToDisk:
`uint32 N`, `uint32 D`, then one `D`-float block per entry in store order
(`D` is read from `entries_[0]`; the store invariant gives every entry that
length). -/
def saveBinary (entries : List (IndexEntry Nat)) : List Nat :=
  u32le entries.length ++ u32le (entries.headD default).embedding.length
    ++ (entries.map (fun e => (e.embedding.map u32le).flatten)).flatten

/-- Embedding of `VectorIndex::saveToDisk` (main.cpp lines 253–287): fails on
an empty store, otherwise produces the binary file bytes and the metadata
array (id, source, content per entry, in order). -/
def saveToDisk (entries : List (IndexEntry Nat)) :
    Except String (List Nat × List Document) :=
  if entries.isEmpty then .error "No entries to save."
  else .ok (saveBinary entries, entries.map (·.doc))

/-- State of the binary input stream: the file bytes, the read position, and
the fail bit.  `std::ifstream::read` into a zero-initialised buffer stores
the bytes that are available, leaves the rest of the buffer zero, and sets
the fail bit on a short read; once the fail bit is set, later reads extract
nothing.  loadFromDisk never checks the fail bit. -/
structure RStream where
  bytes : List Nat
  pos : Nat
  failed : Bool
  deriving Repr

/-- One `in.read(buf, n)` into a zero-initialised buffer: the returned list
is the buffer content after the read (available bytes, zero-filled tail). -/
def rread (s : RStream) (n : Nat) : List Nat × RStream :=
  if s.failed then (List.replicate n 0, s)
  else
    let taken := (s.bytes.drop s.pos).take n
    (taken ++ List.replicate (n - taken.length) 0,
     ⟨s.bytes, s.pos + taken.length, decide (taken.length < n)⟩)

/-- Read a `uint32_t` (4 bytes little-endian) from the stream. -/
def readU32 (s : RStream) : Nat × RStream :=
  let r := rread s 4
  (match r.1 with
   | [b0, b1, b2, b3] => bytesToU32 b0 b1 b2 b3
   | _ => 0, r.2)

/-- The entry-reconstruction loop of loadFromDisk: metadata element `i` is
paired with the `i`-th sequential `dim`-float block. -/
def loadEntriesLoop (s : RStream) (dim : Nat) : List Document → List (IndexEntry Nat)
  | [] => []
  | d :: rest =>
    let r := rread s (dim * 4)
    ⟨d, bytesToWords r.1⟩ :: loadEntriesLoop r.2 dim rest

/-- Embedding of `VectorIndex::loadFromDisk` (main.cpp lines 289–323): read
`N` and `D` from the header, check the metadata length against `N`, then
read one `D`-float block per metadata record.  The stream's fail bit is
never consulted, exactly as in the source. -/
def loadFromDisk (binary : List Nat) (meta : List Document) :
    Except String (List (IndexEntry Nat)) :=
  let r1 := readU32 ⟨binary, 0, false⟩
  let r2 := readU32 r1.2
  if meta.length ≠ r1.1 then .error "Metadata size does not match index"
  else .ok (loadEntriesLoop r2.2 r2.1 meta)

/-! ### Cosine similarity (VectorIndex::cosineSim, main.cpp lines 364–381)

The floating-point accumulation in `double` and the final division are
idealised over the real numbers. -/

/-- Embedding of `VectorIndex::cosineSim`: `0` when the lengths differ or
`a` is empty, `0` when either accumulated squared norm is zero, otherwise
the normalised dot product. -/
noncomputable def cosineSim (a b : List ℝ) : ℝ :=
  if a.length ≠ b.length ∨ a.isEmpty then 0
  else
    let dot := (List.zipWith (· * ·) a b).sum
    let na := (a.map (fun x => x * x)).sum
    let nb := (b.map (fun x => x * x)).sum
    if na = 0 ∨ nb = 0 then 0
    else dot / (Real.sqrt na * Real.sqrt nb)

/-! ### Top-k selection (VectorIndex::search, main.cpp lines 325–358)

`search` ranks the scored pairs with `std::partial_sort` and the comparator
`a.first > b.first`.  `std::partial_sort` is modelled as the GNU libstdc++
implementation the binary actually runs: `__heap_select` (make a heap of the
first `middle` elements, then sift every later element that compares below
the heap top into the heap) followed by `__sort_heap`.  The model is generic
in the element type and the boolean comparator.  List indices play the role
of the random-access iterators; `(len - 2) / 2` is computed in a signed type
in the source, so the even-length branch of `__adjust_heap` carries the
explicit guard `2 ≤ len` that signed division gives for free. -/

section HeapSelect

variable {β : Type} [Inhabited β] (lt : β → β → Bool)

/-- libstdc++ `std::__push_heap`: walk the hole up while the parent compares
below the value, then drop the value into the hole. -/
def pushHeap (l : List β) (holeIndex topIndex : Nat) (value : β) : List β :=
  if holeIndex > topIndex ∧ lt (l.getD ((holeIndex - 1) / 2) default) value then
    pushHeap (l.set holeIndex (l.getD ((holeIndex - 1) / 2) default))
      ((holeIndex - 1) / 2) topIndex value
  else l.set holeIndex value
termination_by holeIndex
decreasing_by omega

/-- The sift-down loop of libstdc++ `std::__adjust_heap`: push the hole down
along the larger child while a second child exists; returns the array and
the final hole position. -/
def adjustLoop (l : List β) (holeIndex len : Nat) : List β × Nat :=
  if holeIndex < (len - 1) / 2 then
    if lt (l.getD (2 * (holeIndex + 1)) default)
          (l.getD (2 * (holeIndex + 1) - 1) default) then
      adjustLoop (l.set holeIndex (l.getD (2 * (holeIndex + 1) - 1) default))
        (2 * (holeIndex + 1) - 1) len
    else
      adjustLoop (l.set holeIndex (l.getD (2 * (holeIndex + 1)) default))
        (2 * (holeIndex + 1)) len
  else (l, holeIndex)
termination_by len - holeIndex
decreasing_by
  all_goals omega

/-- libstdc++ `std::__adjust_heap`: sift the hole down to a leaf (with the
special case for an even-length heap whose last node has a single child),
then push the value back up from the leaf. -/
def adjustHeap (l : List β) (holeIndex len : Nat) (value : β) : List β :=
  let p := adjustLoop lt l holeIndex len
  let q :=
    if len % 2 = 0 ∧ 2 ≤ len ∧ p.2 = (len - 2) / 2 then
      (p.1.set p.2 (p.1.getD (2 * (p.2 + 1) - 1) default), 2 * (p.2 + 1) - 1)
    else p
  pushHeap lt q.1 q.2 holeIndex value

/-- libstdc++ `std::__pop_heap(first, first + len, first + result)`: save
the element at `result`, move the heap top there, and sift the saved value
into the heap of size `len`. -/
def popHeapAt (l : List β) (len result : Nat) : List β :=
  adjustHeap lt (l.set result (l.getD 0 default)) 0 len (l.getD result default)

/-- The loop of libstdc++ `std::__make_heap`: sift down every internal node,
last parent first. -/
def makeHeapLoop (l : List β) (parent len : Nat) : List β :=
  if parent = 0 then adjustHeap lt l parent len (l.getD parent default)
  else
    makeHeapLoop (adjustHeap lt l parent len (l.getD parent default))
      (parent - 1) len
termination_by parent
decreasing_by omega

/-- libstdc++ `std::__make_heap` on the first `len` elements. -/
def makeHeap (l : List β) (len : Nat) : List β :=
  if len < 2 then l else makeHeapLoop lt l ((len - 2) / 2) len

/-- The second phase of libstdc++ `std::__heap_select`: for every index in
`[i, last)`, an element comparing below the heap top is swapped into the
heap of size `middle`. -/
def heapSelectLoop (l : List β) (middle i last : Nat) : List β :=
  if i < last then
    if lt (l.getD i default) (l.getD 0 default) then
      heapSelectLoop (popHeapAt lt l middle i) middle (i + 1) last
    else heapSelectLoop l middle (i + 1) last
  else l
termination_by last - i
decreasing_by
  all_goals omega

/-- libstdc++ `std::__heap_select`. -/
def heapSelect (l : List β) (middle last : Nat) : List β :=
  heapSelectLoop lt (makeHeap lt l middle) middle middle last

/-- The loop of libstdc++ `std::__sort_heap`: repeatedly pop the heap top to
the end of the shrinking heap range. -/
def sortHeapLoop (l : List β) (last : Nat) : List β :=
  if 1 < last then sortHeapLoop (popHeapAt lt l (last - 1) (last - 1)) (last - 1)
  else l
termination_by last
decreasing_by omega

/-- libstdc++ `std::partial_sort(first, first + middle, first + len)`:
`__heap_select` then `__sort_heap` on the first `middle` elements. -/
def topKSort (l : List β) (middle : Nat) : List β :=
  sortHeapLoop lt (heapSelect lt l middle l.length) middle

end HeapSelect

/-- The comparator of VectorIndex::search:
`[](a, b) { return a.first > b.first; }` on (score, index) pairs. -/
noncomputable def scoreGtB (a b : ℝ × Nat) : Bool := decide (a.1 > b.1)

/-- Embedding of `VectorIndex::search` (main.cpp lines 325–358): score every
entry against the query with `cosineSim`, clamp `topK` to the entry count,
rank with `std::partial_sort` under the descending-score comparator, and
return the documents of the first `topK` ranked pairs. -/
noncomputable def search (entries : List (IndexEntry ℝ)) (q : List ℝ) (k : Nat) :
    Except String (List Document) :=
  if entries.isEmpty then .error "Index is empty."
  else
    let scored := (List.range entries.length).map
      (fun i => (cosineSim q (entries.getD i default).embedding, i))
    let topK := min k entries.length
    let sorted := topKSort scoreGtB scored topK
    .ok ((sorted.take topK).map (fun p => (entries.getD p.2 default).doc))

/-! ## Theorems -/

theorem splitNN_length : ∀ {s pre post : Str}, splitNN s = some (pre, post) →
    s.length = pre.length + 2 + post.length := by
  intro s
  induction s with
  | nil => intro pre post h; simp [splitNN] at h
  | cons c1 rest ih =>
    intro pre post h
    cases rest with
    | nil => simp [splitNN] at h
    | cons c2 rest' =>
      rw [splitNN] at h
      split at h
      · simp only [Option.some.injEq, Prod.mk.injEq] at h
        obtain ⟨h1, h2⟩ := h
        subst h1; subst h2
        simp only [List.length_cons, List.length_nil]
        omega
      · cases hs : splitNN (c2 :: rest') with
        | none => rw [hs] at h; simp at h
        | some p =>
          rw [hs] at h
          simp only [Option.map_some', Option.some.injEq, Prod.mk.injEq] at h
          obtain ⟨h1, h2⟩ := h
          subst h1; subst h2
          have := @ih p.1 p.2 (by rw [hs])
          simp only [List.length_cons] at this ⊢
          omega

theorem cppChunksF_eq_filter : ∀ (fuel : Nat) (s : Str), s.length ≤ fuel →
    cppChunksF fuel s = (splitOnNNF fuel s).filter (fun c => !c.isEmpty) := by
  intro fuel
  induction fuel with
  | zero =>
    intro s hs
    have hnil : s = [] := List.length_eq_zero.mp (Nat.le_zero.mp hs)
    subst hnil
    simp [cppChunksF, splitOnNNF]
  | succ fuel ih =>
    intro s hs
    cases hsp : splitNN s with
    | none =>
      by_cases he : s.isEmpty <;>
        simp [cppChunksF, splitOnNNF, hsp, List.filter_cons, he]
    | some p =>
      obtain ⟨pre, post⟩ := p
      have hlen := splitNN_length hsp
      have ihp := ih post (by omega)
      by_cases hp : pre.isEmpty <;>
        simp [cppChunksF, splitOnNNF, hsp, List.filter_cons, hp, ihp]

theorem cppChunks_eq_filter (s : Str) :
    cppChunks s = (splitOnNN s).filter (fun c => !c.isEmpty) :=
  cppChunksF_eq_filter s.length s le_rfl

theorem assignIds_map_id (path : Str) : ∀ (cs : List Str) (ctr : Nat),
    (assignIds ctr path cs).map Document.id = (List.range' ctr cs.length).map mkId := by
  intro cs
  induction cs with
  | nil => intro ctr; simp [assignIds]
  | cons c cs ih => intro ctr; simp [assignIds, List.range', ih (ctr + 1)]

theorem assignIds_length (path : Str) : ∀ (cs : List Str) (ctr : Nat),
    (assignIds ctr path cs).length = cs.length := by
  intro cs
  induction cs with
  | nil => intro ctr; simp [assignIds]
  | cons c cs ih => intro ctr; simp [assignIds, ih (ctr + 1)]

theorem loadDocsGo_map_id : ∀ (files : List (Str × Str)) (ctr : Nat),
    (loadDocsGo files ctr).map Document.id
      = (List.range' ctr (loadDocsGo files ctr).length).map mkId := by
  intro files
  induction files with
  | nil => intro ctr; simp [loadDocsGo]
  | cons f rest ih =>
    intro ctr
    obtain ⟨path, content⟩ := f
    cases hc : content.isEmpty with
    | true => simpa [loadDocsGo, hc] using ih ctr
    | false =>
      simp only [loadDocsGo, hc, Bool.false_eq_true, if_false]
      rw [List.map_append, assignIds_map_id, ih, List.length_append,
        assignIds_length, ← List.map_append]
      congr 1
      have := List.range'_append ctr (cppChunks content).length
        (loadDocsGo rest (ctr + (cppChunks content).length)).length 1
      simpa [Nat.add_comm] using this

theorem loadDocuments_ids (files : List (Str × Str)) :
    (loadDocuments files).map Document.id
      = (List.range (loadDocuments files).length).map mkId := by
  rw [List.range_eq_range']
  exact loadDocsGo_map_id files 0

/-- C7: for every document text, the chunking loop of `loadDocuments` splits
on the literal two-character separator `"\n\n"` and keeps exactly the
non-empty pieces strictly between separators, including the trailing piece
with no following separator; chunking `"A\n\nB\n\nC"` yields exactly
`"A"`, `"B"`, `"C"`; and ids are `"doc-0"`, `"doc-1"`, … sequentially across
the whole corpus in discovery order. -/
theorem chunker_spec :
    (∀ s : Str, cppChunks s = (splitOnNN s).filter (fun c => !c.isEmpty))
      ∧ cppChunks ['A', '\n', '\n', 'B', '\n', '\n', 'C'] = [['A'], ['B'], ['C']]
      ∧ ∀ files : List (Str × Str),
          (loadDocuments files).map Document.id
            = (List.range (loadDocuments files).length).map mkId :=
  ⟨cppChunks_eq_filter, by decide, loadDocuments_ids⟩

theorem deco_length (path chunk : Str) :
    (deco path chunk).length = path.length + chunk.length + 3 := by
  simp [deco]
  omega

theorem ellipsis_length : ellipsis.length = 3 := rfl

theorem perChunkCap_long {c : Str} (h : c.length > MAX_CHARS_PER_CHUNK) :
    perChunkCap c = c.take MAX_CHARS_PER_CHUNK ++ ellipsis := by
  simp [perChunkCap, h]

theorem perChunkCap_long_length {c : Str} (h : c.length > MAX_CHARS_PER_CHUNK) :
    (perChunkCap c).length = MAX_CHARS_PER_CHUNK + ellipsis.length := by
  rw [perChunkCap_long h]
  simp [List.length_append, List.length_take]
  omega

theorem assembleLoop_stop : ∀ (docs : List Document) (total : Nat),
    MAX_TOTAL_CHARS ≤ total → assembleLoop docs total = [] := by
  intro docs total h
  cases docs with
  | nil => rfl
  | cons d rest => simp [assembleLoop, h]

/-- C6: in the context-building loop, a piece whose (possibly per-chunk
capped) text exceeds the positive remaining budget is truncated to exactly
the remaining budget, the ellipsis marker is appended, and every later piece
is dropped; with remaining budget exactly `0` nothing at all is emitted. -/
theorem assembler_boundary_cases :
    (∀ (d : Document) (rest : List Document) (total : Nat),
        total < MAX_TOTAL_CHARS →
        MAX_TOTAL_CHARS - total < (perChunkCap d.content).length →
        assembleLoop (d :: rest) total
          = [deco d.sourcePath
              ((perChunkCap d.content).take (MAX_TOTAL_CHARS - total) ++ ellipsis)])
      ∧ (∀ (d : Document) (rest : List Document),
          assembleLoop (d :: rest) MAX_TOTAL_CHARS = []) := by
  constructor
  · intro d rest total h1 h2
    have hMAX : MAX_TOTAL_CHARS = 3000 := rfl
    simp only [assembleLoop]
    rw [if_neg (by omega : ¬ total ≥ MAX_TOTAL_CHARS)]
    rw [if_pos (by omega : total + (perChunkCap d.content).length > MAX_TOTAL_CHARS)]
    rw [if_pos (⟨by omega, h2⟩ :
      MAX_TOTAL_CHARS - total > 0 ∧ MAX_TOTAL_CHARS - total < (perChunkCap d.content).length)]
    have hmin : ((perChunkCap d.content).take (MAX_TOTAL_CHARS - total)).length
        = MAX_TOTAL_CHARS - total := by
      simp [List.length_take]
      omega
    have hstop : MAX_TOTAL_CHARS ≤ total
        + (deco d.sourcePath
            ((perChunkCap d.content).take (MAX_TOTAL_CHARS - total) ++ ellipsis)).length := by
      rw [deco_length, List.length_append, hmin, ellipsis_length]
      omega
    rw [assembleLoop_stop rest _ hstop]
  · intro d rest
    exact assembleLoop_stop (d :: rest) MAX_TOTAL_CHARS le_rfl

/-- Witness for `assembler_boundary_cases` at concrete inputs: a 900-character
content (capped to 803 characters) against a remaining budget of 500. -/
theorem assembler_boundary_cases_witness :
    assembleLoop [⟨[], ['p'], List.replicate 900 'a'⟩] 2500
      = [deco ['p']
          ((perChunkCap (List.replicate 900 'a')).take (MAX_TOTAL_CHARS - 2500) ++ ellipsis)]
      ∧ assembleLoop [⟨[], ['p'], List.replicate 900 'a'⟩] MAX_TOTAL_CHARS = [] := by
  have hx : (List.replicate 900 'a').length > MAX_CHARS_PER_CHUNK := by
    simp only [List.length_replicate]
    decide
  refine ⟨assembler_boundary_cases.1 ⟨[], ['p'], List.replicate 900 'a'⟩ [] 2500
    (by decide) ?_, assembler_boundary_cases.2 ⟨[], ['p'], List.replicate 900 'a'⟩ []⟩
  rw [perChunkCap_long_length hx, ellipsis_length]
  decide

/-- C9: a content longer than the per-chunk limit of 800 characters is
truncated to exactly 800 characters with the literal ellipsis marker
appended; a single 1000-character chunk is assembled into exactly the
decorated 800-character truncation plus the marker. -/
theorem per_chunk_truncation :
    (∀ c : Str, c.length > MAX_CHARS_PER_CHUNK →
        perChunkCap c = c.take MAX_CHARS_PER_CHUNK ++ ellipsis
          ∧ (perChunkCap c).length = MAX_CHARS_PER_CHUNK + ellipsis.length)
      ∧ (∀ d : Document, d.content.length = 1000 →
          assembleContext [d] = [deco d.sourcePath (d.content.take 800 ++ ellipsis)]
            ∧ (d.content.take 800 ++ ellipsis).length = 800 + ellipsis.length) := by
  constructor
  · intro c h
    exact ⟨perChunkCap_long h, perChunkCap_long_length h⟩
  · intro d h
    have h800 : d.content.length > MAX_CHARS_PER_CHUNK := by
      rw [h]; norm_num [MAX_CHARS_PER_CHUNK]
    have hcap : perChunkCap d.content = d.content.take 800 ++ ellipsis := by
      simpa [MAX_CHARS_PER_CHUNK] using perChunkCap_long h800
    have hlen : (d.content.take 800 ++ ellipsis).length = 800 + ellipsis.length := by
      simp [List.length_append, List.length_take, h]
    refine ⟨?_, hlen⟩
    simp only [assembleContext, assembleLoop, hcap]
    rw [if_neg (by norm_num [MAX_TOTAL_CHARS] : ¬ (0 : Nat) ≥ MAX_TOTAL_CHARS)]
    rw [if_neg (by rw [hlen]; norm_num [MAX_TOTAL_CHARS, ellipsis_length] :
      ¬ 0 + (d.content.take 800 ++ ellipsis).length > MAX_TOTAL_CHARS)]

/-- Witness for `per_chunk_truncation` at concrete inputs: a 900-character
content for the first part, a 1000-character single chunk for the second. -/
theorem per_chunk_truncation_witness :
    perChunkCap (List.replicate 900 'a')
        = (List.replicate 900 'a').take MAX_CHARS_PER_CHUNK ++ ellipsis
      ∧ assembleContext [⟨[], [], List.replicate 1000 'c'⟩]
        = [deco [] ((List.replicate 1000 'c').take 800 ++ ellipsis)] := by
  constructor
  · exact (per_chunk_truncation.1 (List.replicate 900 'a')
      (by simp only [List.length_replicate]; decide)).1
  · exact (per_chunk_truncation.2 ⟨[], [], List.replicate 1000 'c'⟩
      (by simp only [List.length_replicate])).1

/-- C2 fails on the code: the global-cap check of SentraEngine::answer
compares the undecorated chunk length against `MAX_TOTAL_CHARS` although the
accumulator adds decorated lengths, so a single chunk whose decoration
(`"[" + sourcePath + "]\n"`) is large yields a context whose total decorated
length is 3004 > 3000. -/
theorem assembled_total_exceeds_limit :
    totalLen (assembleContext [⟨mkId 0, List.replicate 3000 'p', ['x']⟩]) = 3004
      ∧ 3000 < totalLen (assembleContext [⟨mkId 0, List.replicate 3000 'p', ['x']⟩]) := by
  have hkey : assembleContext [⟨mkId 0, List.replicate 3000 'p', ['x']⟩]
      = [deco (List.replicate 3000 'p') ['x']] := by
    simp only [assembleContext, assembleLoop]
    rw [if_neg (by norm_num [MAX_TOTAL_CHARS] : ¬ (0 : Nat) ≥ MAX_TOTAL_CHARS)]
    have hcap : perChunkCap ['x'] = ['x'] := by
      simp [perChunkCap, MAX_CHARS_PER_CHUNK]
    rw [hcap]
    rw [if_neg (by norm_num [MAX_TOTAL_CHARS] :
      ¬ 0 + (['x'] : Str).length > MAX_TOTAL_CHARS)]
  rw [hkey]
  have hlen : (deco (List.replicate 3000 'p') ['x']).length = 3004 := by
    rw [deco_length]
    simp only [List.length_replicate, List.length_cons, List.length_nil]
  have htot : totalLen [deco (List.replicate 3000 'p') ['x']] = 3004 := by
    simp only [totalLen, List.map_cons, List.map_nil, List.sum_cons, List.sum_nil,
      Nat.add_zero, hlen]
  exact ⟨htot, by rw [htot]; decide⟩

theorem firstNonEmptyLen_of_all_empty : ∀ {embs : List (List ℝ)},
    (∀ e ∈ embs, e = []) → firstNonEmptyLen embs = 0 := by
  intro embs
  induction embs with
  | nil => intro _; rfl
  | cons e rest ih =>
    intro h
    have he : e = [] := h e (by simp)
    subst he
    simpa [firstNonEmptyLen] using ih (fun e' he' => h e' (by simp [he']))

theorem firstNonEmptyLen_find : ∀ embs : List (List ℝ),
    firstNonEmptyLen embs = ((embs.find? (fun e => !e.isEmpty)).map List.length).getD 0 := by
  intro embs
  induction embs with
  | nil => rfl
  | cons e rest ih =>
    cases he : e.isEmpty with
    | true => simp [firstNonEmptyLen, List.find?, he, ih]
    | false => simp [firstNonEmptyLen, List.find?, he]

theorem buildEntries_eq_filter : ∀ (refDim : Nat) (docs : List Document)
    (embs : List (List ℝ)),
    buildEntries refDim docs embs
      = ((docs.zip embs).filter (fun p => !p.2.isEmpty && p.2.length == refDim)).map
          (fun p => ⟨p.1, p.2⟩) := by
  intro refDim docs
  induction docs with
  | nil => intro embs; rfl
  | cons d docs ih =>
    intro embs
    cases embs with
    | nil => rfl
    | cons e embs =>
      cases he : e.isEmpty with
      | true => simp [buildEntries, he, ih]
      | false =>
        by_cases hd : e.length = refDim
        · simp [buildEntries, he, hd, ih]
        · simp [buildEntries, he, hd, ih]

/-- C5: build with a non-empty document list and an equal-length embedding
list fails with the all-empty error when every embedding is empty; the
reference dimension is the length of the first non-empty embedding; a
successful build keeps exactly the pairs whose embedding is non-empty and of
the reference length, in input order; zero survivors always yield an error;
and with exactly one valid embedding out of three, build succeeds with that
single entry. -/
theorem build_spec (docs : List Document) (embs : List (List ℝ))
    (hne : docs ≠ []) (hlen : docs.length = embs.length) :
    ((∀ e ∈ embs, e = []) → build docs embs = .error "All embeddings are empty.")
      ∧ firstNonEmptyLen embs
          = ((embs.find? (fun e => !e.isEmpty)).map List.length).getD 0
      ∧ (∀ es, build docs embs = .ok es →
          es = ((docs.zip embs).filter
            (fun p => !p.2.isEmpty && p.2.length == firstNonEmptyLen embs)).map
              (fun p => ⟨p.1, p.2⟩))
      ∧ (buildEntries (firstNonEmptyLen embs) docs embs = [] →
          ∃ msg, build docs embs = .error msg)
      ∧ (∀ (d1 d2 d3 : Document) (x : ℝ),
          build [d1, d2, d3] [[], [x], []] = .ok [⟨d2, [x]⟩]) := by
  have hde : docs.isEmpty = false := by simp [List.isEmpty_iff, hne]
  refine ⟨?_, firstNonEmptyLen_find embs, ?_, ?_, ?_⟩
  · intro hall
    have h0 := firstNonEmptyLen_of_all_empty hall
    simp [build, hde, hlen, h0]
  · intro es hok
    rw [build] at hok
    rw [if_neg (by simp [hde])] at hok
    rw [if_neg (by omega)] at hok
    by_cases h0 : firstNonEmptyLen embs = 0
    · rw [if_pos h0] at hok
      exact absurd hok (by simp)
    · rw [if_neg h0] at hok
      by_cases hemp : (buildEntries (firstNonEmptyLen embs) docs embs).isEmpty
      · rw [if_pos hemp] at hok
        exact absurd hok (by simp)
      · rw [if_neg hemp] at hok
        have h' : buildEntries (firstNonEmptyLen embs) docs embs = es :=
          Except.ok.inj hok
        rw [← h', buildEntries_eq_filter]
  · intro hempty
    by_cases h0 : firstNonEmptyLen embs = 0
    · exact ⟨"All embeddings are empty.", by simp [build, hde, hlen, h0]⟩
    · refine ⟨"No valid entries after filtering embeddings.", ?_⟩
      rw [build]
      rw [if_neg (by simp [hde])]
      rw [if_neg (by omega)]
      rw [if_neg h0]
      rw [if_pos (by simp [List.isEmpty_iff, hempty])]
  · intro d1 d2 d3 x
    have href : firstNonEmptyLen [[], [x], []] = 1 := by
      simp [firstNonEmptyLen]
    simp [build, href, buildEntries]

/-- Witness for `build_spec` at a concrete input: three documents, only the
middle embedding valid. -/
theorem build_spec_witness :
    build [⟨mkId 0, [], ['a']⟩, ⟨mkId 1, [], ['b']⟩, ⟨mkId 2, [], ['c']⟩]
        [[], [(1 : ℝ)], []]
      = .ok [⟨⟨mkId 1, [], ['b']⟩, [(1 : ℝ)]⟩] :=
  (build_spec [⟨mkId 0, [], ['a']⟩, ⟨mkId 1, [], ['b']⟩, ⟨mkId 2, [], ['c']⟩]
    [[], [(1 : ℝ)], []] (by simp) (by simp)).2.2.2.2
    ⟨mkId 0, [], ['a']⟩ ⟨mkId 1, [], ['b']⟩ ⟨mkId 2, [], ['c']⟩ 1

theorem bytesToU32_u32le {n : Nat} (h : n < 4294967296) :
    bytesToU32 (n % 256) (n / 256 % 256) (n / 65536 % 256) (n / 16777216 % 256) = n := by
  unfold bytesToU32
  omega

theorem u32le_length (n : Nat) : (u32le n).length = 4 := rfl

theorem bytesToWords_u32le : ∀ ws : List Nat, (∀ w ∈ ws, w < 4294967296) →
    bytesToWords ((ws.map u32le).flatten) = ws := by
  intro ws
  induction ws with
  | nil => intro _; rfl
  | cons w ws ih =>
    intro h
    have hw : w < 4294967296 := h w (by simp)
    simp only [List.map_cons, List.flatten_cons, u32le, List.cons_append,
      List.nil_append, bytesToWords]
    rw [bytesToU32_u32le hw]
    have htail := ih (fun w' hw' => h w' (by simp [hw']))
    simpa using htail

theorem flatten_u32le_length (l : List Nat) :
    ((l.map u32le).flatten).length = 4 * l.length := by
  induction l with
  | nil => rfl
  | cons w l ih =>
    simp only [List.map_cons, List.flatten_cons, List.length_append, ih,
      u32le_length, List.length_cons]
    ring

theorem rread_exact {bytes : List Nat} {pos n : Nat} {pre rest : List Nat}
    (hsplit : bytes.drop pos = pre ++ rest) (hlen : pre.length = n) :
    rread ⟨bytes, pos, false⟩ n = (pre, ⟨bytes, pos + n, false⟩) := by
  subst hlen
  simp [rread, hsplit, List.take_left]

theorem loadEntriesLoop_save : ∀ (entries : List (IndexEntry Nat))
    (bytes : List Nat) (pos D : Nat),
    (∀ e ∈ entries, e.embedding.length = D) →
    (∀ e ∈ entries, ∀ w ∈ e.embedding, w < 4294967296) →
    bytes.drop pos = (entries.map (fun e => (e.embedding.map u32le).flatten)).flatten →
    loadEntriesLoop ⟨bytes, pos, false⟩ D (entries.map (·.doc)) = entries := by
  intro entries
  induction entries with
  | nil => intro bytes pos D _ _ _; rfl
  | cons e entries ih =>
    intro bytes pos D hdim hw hdrop
    have hblock : ((e.embedding.map u32le).flatten).length = D * 4 := by
      rw [flatten_u32le_length, hdim e (by simp)]
      ring
    simp only [List.map_cons, List.flatten_cons] at hdrop
    have hread := rread_exact hdrop hblock
    simp only [List.map_cons, loadEntriesLoop, hread]
    have h1 : bytesToWords ((e.embedding.map u32le).flatten) = e.embedding :=
      bytesToWords_u32le e.embedding (hw e (by simp))
    rw [h1]
    have h2 := ih bytes (pos + D * 4) D
      (fun e' he' => hdim e' (by simp [he']))
      (fun e' he' => hw e' (by simp [he']))
      (by rw [← List.drop_drop, hdrop, ← hblock, List.drop_left])
    rw [h2]

/-- C3: persisting a built store (non-empty, uniform dimension, entry count
and dimension in `uint32` range, embedding words 32-bit) and loading the two
artifacts back reconstructs the very same entry list: same order, ids,
source paths, contents, and bit-identical embedding words. -/
theorem save_load_roundtrip (entries : List (IndexEntry Nat))
    (hne : entries ≠ [])
    (hdim : ∀ e ∈ entries,
      e.embedding.length = (entries.headD default).embedding.length)
    (hN : entries.length < 4294967296)
    (hD : (entries.headD default).embedding.length < 4294967296)
    (hw : ∀ e ∈ entries, ∀ w ∈ e.embedding, w < 4294967296) :
    saveToDisk entries = .ok (saveBinary entries, entries.map (·.doc))
      ∧ loadFromDisk (saveBinary entries) (entries.map (·.doc)) = .ok entries := by
  constructor
  · simp [saveToDisk, List.isEmpty_iff, hne]
  · have hsb : saveBinary entries
        = u32le entries.length
          ++ (u32le (entries.headD default).embedding.length
              ++ (entries.map (fun e => (e.embedding.map u32le).flatten)).flatten) := by
      simp only [saveBinary, List.append_assoc]
    have hsplit1 : (saveBinary entries).drop 0
        = u32le entries.length
          ++ (u32le (entries.headD default).embedding.length
              ++ (entries.map (fun e => (e.embedding.map u32le).flatten)).flatten) := by
      rw [List.drop_zero, hsb]
    have hr1 := rread_exact hsplit1 (u32le_length entries.length)
    simp only [show (0 : Nat) + 4 = 4 from rfl] at hr1
    have hsplit2 : (saveBinary entries).drop 4
        = u32le (entries.headD default).embedding.length
          ++ (entries.map (fun e => (e.embedding.map u32le).flatten)).flatten := by
      rw [hsb]
      rw [show (4 : Nat) = (u32le entries.length).length from rfl]
      exact List.drop_left _ _
    have hr2 := rread_exact hsplit2
      (u32le_length (entries.headD default).embedding.length)
    simp only [show (4 : Nat) + 4 = 8 from rfl] at hr2
    have hloop := loadEntriesLoop_save entries (saveBinary entries) 8
      (entries.headD default).embedding.length hdim hw (by
        rw [show (8 : Nat) = 4 + 4 from rfl, ← List.drop_drop, hsplit2]
        rw [show (4 : Nat) = (u32le (entries.headD default).embedding.length).length from rfl]
        exact List.drop_left _ _)
    simp only [loadFromDisk, readU32, hr1, hr2, u32le]
    rw [bytesToU32_u32le hN, bytesToU32_u32le hD]
    rw [if_neg (by simp)]
    rw [hloop]

/-- Witness for `save_load_roundtrip` at a concrete one-entry store whose
single embedding word is the bit pattern of `1.0f`. -/
theorem save_load_roundtrip_witness :
    saveToDisk [⟨⟨mkId 0, ['p'], ['h']⟩, [1065353216]⟩]
        = .ok (saveBinary [⟨⟨mkId 0, ['p'], ['h']⟩, [1065353216]⟩],
               [⟨mkId 0, ['p'], ['h']⟩])
      ∧ loadFromDisk (saveBinary [⟨⟨mkId 0, ['p'], ['h']⟩, [1065353216]⟩])
          [⟨mkId 0, ['p'], ['h']⟩]
        = .ok [⟨⟨mkId 0, ['p'], ['h']⟩, [1065353216]⟩] :=
  save_load_roundtrip [⟨⟨mkId 0, ['p'], ['h']⟩, [1065353216]⟩]
    (by simp) (by simp) (by simp) (by simp) (by decide)

/-- C4 fails on the code: loadFromDisk never inspects the stream state after
a read, so a binary file whose header promises 1 entry of dimension 2 but
whose payload holds only one float (4 of the 8 required bytes) loads
without any error into a store whose embedding tail is silently
zero-filled (word list `[0x3F800000, 0]`), instead of failing with the
IntegrityError the claim requires. -/
theorem truncated_load_silently_zero_fills :
    loadFromDisk (u32le 1 ++ u32le 2 ++ [0, 0, 128, 63]) [⟨mkId 0, [], ['h']⟩]
      = .ok [⟨⟨mkId 0, [], ['h']⟩, [1065353216, 0]⟩] := by
  rfl

theorem sumSq_nonneg (v : List ℝ) : 0 ≤ (v.map (fun x => x * x)).sum := by
  induction v with
  | nil => simp
  | cons x v ih =>
    simp only [List.map_cons, List.sum_cons]
    have := mul_self_nonneg x
    linarith

theorem sumSq_eq_zero_iff (v : List ℝ) :
    (v.map (fun x => x * x)).sum = 0 ↔ ∀ x ∈ v, x = 0 := by
  induction v with
  | nil => simp
  | cons x v ih =>
    simp only [List.map_cons, List.sum_cons, List.mem_cons]
    constructor
    · intro h
      have hx := mul_self_nonneg x
      have hs := sumSq_nonneg v
      have h1 : x * x = 0 := by linarith
      have h2 : (v.map (fun x => x * x)).sum = 0 := by linarith
      intro y hy
      rcases hy with hy | hy
      · subst hy; exact mul_self_eq_zero.mp h1
      · exact ih.mp h2 y hy
    · intro h
      have hx : x = 0 := h x (Or.inl rfl)
      have hrest : (v.map (fun x => x * x)).sum = 0 :=
        ih.mpr (fun y hy => h y (Or.inr hy))
      rw [hx, hrest]
      ring

theorem zipWith_mul_self_sum (v : List ℝ) :
    (List.zipWith (· * ·) v v).sum = (v.map (fun x => x * x)).sum := by
  induction v with
  | nil => rfl
  | cons x v ih => simp [List.zipWith, ih]

/-- C8: `cosineSim` returns exactly `0` whenever the two vectors have
different lengths or either vector has zero squared norm (in particular for
the zero vector and for empty vectors), and `cosineSim v v = 1` for every
nonzero `v` (the floating-point computation is idealised over ℝ, where the
claim's "within floating tolerance" is exact equality). -/
theorem cosine_spec :
    (∀ a b : List ℝ, a.length ≠ b.length → cosineSim a b = 0)
      ∧ (∀ a b : List ℝ,
          (a.map (fun x => x * x)).sum = 0 ∨ (b.map (fun x => x * x)).sum = 0 →
          cosineSim a b = 0)
      ∧ (∀ v : List ℝ, v ≠ [] → (∃ x ∈ v, x ≠ 0) → cosineSim v v = 1) := by
  refine ⟨?_, ?_, ?_⟩
  · intro a b h
    simp [cosineSim, h]
  · intro a b h
    by_cases hlen : a.length = b.length
    · by_cases hae : a.isEmpty
      · simp [cosineSim, hae]
      · simp only [cosineSim, hlen, ne_eq, not_true_eq_false, false_or,
          if_neg, hae]
        rw [if_neg (by simp [hae])]
        rw [if_pos h]
    · simp [cosineSim, hlen]
  · intro v hne hnz
    have hS : (v.map (fun x => x * x)).sum ≠ 0 := by
      intro h0
      obtain ⟨x, hx, hxne⟩ := hnz
      exact hxne ((sumSq_eq_zero_iff v).mp h0 x hx)
    have hSpos : 0 ≤ (v.map (fun x => x * x)).sum := sumSq_nonneg v
    have hve : v.isEmpty = false := by simp [List.isEmpty_iff, hne]
    simp only [cosineSim, hve]
    rw [if_neg (by simp)]
    rw [if_neg (by simp [hS])]
    rw [zipWith_mul_self_sum]
    rw [Real.mul_self_sqrt hSpos]
    exact div_self hS

/-- Witness for `cosine_spec` at concrete vectors: length mismatch `[1]` vs
`[]`, the zero vector `[0]`, and the nonzero vector `[1]`. -/
theorem cosine_spec_witness :
    cosineSim [(1 : ℝ)] [] = 0
      ∧ cosineSim [(0 : ℝ)] [0] = 0
      ∧ cosineSim [(1 : ℝ)] [1] = 1 :=
  ⟨cosine_spec.1 [(1 : ℝ)] [] (by simp),
   cosine_spec.2.1 [(0 : ℝ)] [0] (by simp),
   cosine_spec.2.2 [(1 : ℝ)] (by simp) ⟨1, by simp, one_ne_zero⟩⟩

section HeapLemmas

variable {β : Type} [Inhabited β] (lt : β → β → Bool) {P : β → Prop}

theorem getD_pred {l : List β} {d : β} (hl : ∀ x ∈ l, P x) (hd : P d) (n : Nat) :
    P (l.getD n d) := by
  by_cases h : n < l.length
  · rw [List.getD_eq_getElem l d h]
    exact hl _ (List.getElem_mem h)
  · rw [List.getD_eq_default l d (by omega)]
    exact hd

theorem set_pred {l : List β} {v : β} (hl : ∀ x ∈ l, P x) (hv : P v) :
    ∀ x ∈ l.set n v, P x := by
  intro x hx
  rcases List.mem_or_eq_of_mem_set hx with h | h
  · exact hl x h
  · exact h ▸ hv

theorem pushHeap_length (l : List β) (hole top : Nat) (v : β) :
    (pushHeap lt l hole top v).length = l.length := by
  induction l, hole, top, v using pushHeap.induct lt with
  | case1 l hole top v h ih => rw [pushHeap, if_pos h]; simpa using ih
  | case2 l hole top v h => rw [pushHeap, if_neg h]; simp

theorem pushHeap_pred : ∀ (l : List β) (hole top : Nat) (v : β),
    (∀ x ∈ l, P x) → P default → P v → ∀ x ∈ pushHeap lt l hole top v, P x := by
  intro l hole top v
  induction l, hole, top, v using pushHeap.induct lt with
  | case1 l hole top v h ih =>
    intro hl hd hv
    rw [pushHeap, if_pos h]
    exact ih (set_pred hl (getD_pred hl hd _)) hd hv
  | case2 l hole top v h =>
    intro hl hd hv
    rw [pushHeap, if_neg h]
    exact set_pred hl hv

theorem adjustLoop_length (l : List β) (hole len : Nat) :
    (adjustLoop lt l hole len).1.length = l.length := by
  induction l, hole, len using adjustLoop.induct lt with
  | case1 l hole len h hlt ih =>
    rw [adjustLoop, if_pos h, if_pos hlt, ih, List.length_set]
  | case2 l hole len h hlt ih =>
    rw [adjustLoop, if_pos h, if_neg hlt, ih, List.length_set]
  | case3 l hole len h => rw [adjustLoop, if_neg h]

theorem adjustLoop_pred : ∀ (l : List β) (hole len : Nat),
    (∀ x ∈ l, P x) → P default → ∀ x ∈ (adjustLoop lt l hole len).1, P x := by
  intro l hole len
  induction l, hole, len using adjustLoop.induct lt with
  | case1 l hole len h hlt ih =>
    intro hl hd
    rw [adjustLoop, if_pos h, if_pos hlt]
    exact ih (set_pred hl (getD_pred hl hd _)) hd
  | case2 l hole len h hlt ih =>
    intro hl hd
    rw [adjustLoop, if_pos h, if_neg hlt]
    exact ih (set_pred hl (getD_pred hl hd _)) hd
  | case3 l hole len h =>
    intro hl hd
    rw [adjustLoop, if_neg h]
    exact hl

theorem adjustHeap_length (l : List β) (hole len : Nat) (v : β) :
    (adjustHeap lt l hole len v).length = l.length := by
  rw [adjustHeap]
  split
  · rw [pushHeap_length, List.length_set, adjustLoop_length]
  · rw [pushHeap_length, adjustLoop_length]

theorem adjustHeap_pred {l : List β} {hole len : Nat} {v : β}
    (hl : ∀ x ∈ l, P x) (hd : P default) (hv : P v) :
    ∀ x ∈ adjustHeap lt l hole len v, P x := by
  have hp := adjustLoop_pred lt l hole len hl hd
  rw [adjustHeap]
  split
  · exact pushHeap_pred lt _ _ _ _ (set_pred hp (getD_pred hp hd _)) hd hv
  · exact pushHeap_pred lt _ _ _ _ hp hd hv

theorem popHeapAt_length (l : List β) (len result : Nat) :
    (popHeapAt lt l len result).length = l.length := by
  rw [popHeapAt, adjustHeap_length, List.length_set]

theorem popHeapAt_pred {l : List β} {len result : Nat}
    (hl : ∀ x ∈ l, P x) (hd : P default) :
    ∀ x ∈ popHeapAt lt l len result, P x := by
  rw [popHeapAt]
  exact adjustHeap_pred lt (set_pred hl (getD_pred hl hd _)) hd (getD_pred hl hd _)

theorem makeHeapLoop_length (l : List β) (parent len : Nat) :
    (makeHeapLoop lt l parent len).length = l.length := by
  induction l, parent, len using makeHeapLoop.induct lt with
  | case1 l len =>
    rw [makeHeapLoop, if_pos rfl, adjustHeap_length]
  | case2 l parent len h ih =>
    rw [makeHeapLoop, if_neg h, ih, adjustHeap_length]

theorem makeHeapLoop_pred : ∀ (l : List β) (parent len : Nat),
    (∀ x ∈ l, P x) → P default → ∀ x ∈ makeHeapLoop lt l parent len, P x := by
  intro l parent len
  induction l, parent, len using makeHeapLoop.induct lt with
  | case1 l len =>
    intro hl hd
    rw [makeHeapLoop, if_pos rfl]
    exact adjustHeap_pred lt hl hd (getD_pred hl hd _)
  | case2 l parent len h ih =>
    intro hl hd
    rw [makeHeapLoop, if_neg h]
    exact ih (adjustHeap_pred lt hl hd (getD_pred hl hd _)) hd

theorem makeHeap_length (l : List β) (len : Nat) :
    (makeHeap lt l len).length = l.length := by
  rw [makeHeap]
  split
  · rfl
  · rw [makeHeapLoop_length]

theorem makeHeap_pred {l : List β} {len : Nat}
    (hl : ∀ x ∈ l, P x) (hd : P default) : ∀ x ∈ makeHeap lt l len, P x := by
  rw [makeHeap]
  split
  · exact hl
  · exact makeHeapLoop_pred lt l _ len hl hd

theorem heapSelectLoop_length (l : List β) (middle i last : Nat) :
    (heapSelectLoop lt l middle i last).length = l.length := by
  induction l, middle, i, last using heapSelectLoop.induct lt with
  | case1 l middle i last h hlt ih =>
    rw [heapSelectLoop, if_pos h, if_pos hlt, ih, popHeapAt_length]
  | case2 l middle i last h hlt ih =>
    rw [heapSelectLoop, if_pos h, if_neg hlt, ih]
  | case3 l middle i last h => rw [heapSelectLoop, if_neg h]

theorem heapSelectLoop_pred : ∀ (l : List β) (middle i last : Nat),
    (∀ x ∈ l, P x) → P default → ∀ x ∈ heapSelectLoop lt l middle i last, P x := by
  intro l middle i last
  induction l, middle, i, last using heapSelectLoop.induct lt with
  | case1 l middle i last h hlt ih =>
    intro hl hd
    rw [heapSelectLoop, if_pos h, if_pos hlt]
    exact ih (popHeapAt_pred lt hl hd) hd
  | case2 l middle i last h hlt ih =>
    intro hl hd
    rw [heapSelectLoop, if_pos h, if_neg hlt]
    exact ih hl hd
  | case3 l middle i last h =>
    intro hl hd
    rw [heapSelectLoop, if_neg h]
    exact hl

theorem heapSelect_length (l : List β) (middle last : Nat) :
    (heapSelect lt l middle last).length = l.length := by
  rw [heapSelect, heapSelectLoop_length, makeHeap_length]

theorem heapSelect_pred {l : List β} {middle last : Nat}
    (hl : ∀ x ∈ l, P x) (hd : P default) :
    ∀ x ∈ heapSelect lt l middle last, P x := by
  rw [heapSelect]
  exact heapSelectLoop_pred lt _ middle middle last (makeHeap_pred lt hl hd) hd

theorem sortHeapLoop_length (l : List β) (last : Nat) :
    (sortHeapLoop lt l last).length = l.length := by
  induction l, last using sortHeapLoop.induct lt with
  | case1 l last h ih =>
    rw [sortHeapLoop, if_pos h]
    rw [ih, popHeapAt_length]
  | case2 l last h => rw [sortHeapLoop, if_neg h]

theorem sortHeapLoop_pred : ∀ (l : List β) (last : Nat),
    (∀ x ∈ l, P x) → P default → ∀ x ∈ sortHeapLoop lt l last, P x := by
  intro l last
  induction l, last using sortHeapLoop.induct lt with
  | case1 l last h ih =>
    intro hl hd
    rw [sortHeapLoop, if_pos h]
    exact ih (popHeapAt_pred lt hl hd) hd
  | case2 l last h =>
    intro hl hd
    rw [sortHeapLoop, if_neg h]
    exact hl

theorem topKSort_length (l : List β) (middle : Nat) :
    (topKSort lt l middle).length = l.length := by
  rw [topKSort, sortHeapLoop_length, heapSelect_length]

theorem topKSort_pred {l : List β} {middle : Nat}
    (hl : ∀ x ∈ l, P x) (hd : P default) : ∀ x ∈ topKSort lt l middle, P x := by
  rw [topKSort]
  exact sortHeapLoop_pred lt _ middle (heapSelect_pred lt hl hd) hd

/-- Evaluation of the modelled `std::partial_sort` on a three-element array
with `middle = 2`, under the comparator results that arise from scores
`(1, 0, 1)`: the two top-scoring tied elements come back in reversed order. -/
theorem topKSort_three (a b c : β)
    (h1 : lt b a = false) (h2 : lt c b = true) (h3 : lt a c = false) :
    topKSort lt [a, b, c] 2 = [c, a, b] := by
  simp [topKSort, heapSelect, makeHeap, makeHeapLoop, adjustHeap, adjustLoop,
    pushHeap, heapSelectLoop, popHeapAt, sortHeapLoop, h1, h2, h3]

end HeapLemmas

/-- C10: on a built store of uniform dimension `D`, a query of any other
length (the empty query included) scores `0` against every entry, and search
does not fail: it returns exactly `min k N` documents, all drawn from the
stored entries. -/
theorem search_dim_mismatch (entries : List (IndexEntry ℝ)) (q : List ℝ) (k D : Nat)
    (hne : entries ≠ [])
    (hdim : ∀ e ∈ entries, e.embedding.length = D)
    (hq : q.length ≠ D) :
    (∀ e ∈ entries, cosineSim q e.embedding = 0)
      ∧ ∃ res, search entries q k = Except.ok res
          ∧ res.length = min k entries.length
          ∧ ∀ doc ∈ res, doc ∈ entries.map IndexEntry.doc := by
  have hscore : ∀ e ∈ entries, cosineSim q e.embedding = 0 := by
    intro e he
    have hl : q.length ≠ e.embedding.length := by rw [hdim e he]; exact hq
    simp [cosineSim, hl]
  refine ⟨hscore, ?_⟩
  have hee : entries.isEmpty = false := by simp [List.isEmpty_iff, hne]
  simp only [search, hee, Bool.false_eq_true, if_false]
  refine ⟨_, rfl, ?_, ?_⟩
  · rw [List.length_map, List.length_take, topKSort_length, List.length_map,
      List.length_range]
    omega
  · intro doc hdoc
    rw [List.mem_map] at hdoc
    obtain ⟨p, hp, hpd⟩ := hdoc
    have hp' := List.take_subset _ _ hp
    have hP : ∀ x ∈ (List.range entries.length).map
        (fun i => (cosineSim q (entries.getD i default).embedding, i)),
        x.2 < entries.length := by
      intro x hx
      rw [List.mem_map] at hx
      obtain ⟨i, hi, hix⟩ := hx
      rw [← hix]
      exact List.mem_range.mp hi
    have hdef : ((default : ℝ × Nat)).2 < entries.length := by
      have : ((default : ℝ × Nat)).2 = 0 := rfl
      rw [this]
      exact List.length_pos.mpr hne
    have hlt : p.2 < entries.length := topKSort_pred scoreGtB hP hdef p hp'
    rw [List.mem_map]
    refine ⟨entries.getD p.2 default, ?_, hpd⟩
    rw [List.getD_eq_getElem entries default hlt]
    exact List.getElem_mem hlt

/-- Witness for `search_dim_mismatch` at a concrete input: a one-entry store
of dimension 1 queried with the empty embedding and `k = 1`. -/
theorem search_dim_mismatch_witness :
    (∀ e ∈ [(⟨⟨mkId 0, [], ['A']⟩, [(1 : ℝ)]⟩ : IndexEntry ℝ)],
        cosineSim [] e.embedding = 0)
      ∧ ∃ res, search [⟨⟨mkId 0, [], ['A']⟩, [(1 : ℝ)]⟩] [] 1 = Except.ok res
          ∧ res.length = min 1 1
          ∧ ∀ doc ∈ res,
              doc ∈ ([(⟨⟨mkId 0, [], ['A']⟩, [(1 : ℝ)]⟩ : IndexEntry ℝ)]).map
                IndexEntry.doc :=
  search_dim_mismatch [⟨⟨mkId 0, [], ['A']⟩, [(1 : ℝ)]⟩] [] 1 1
    (by simp) (by simp) (by simp)

theorem cosineSim_ones : cosineSim [(1 : ℝ), 0] [(1 : ℝ), 0] = 1 := by
  rw [cosineSim]
  rw [if_neg (by simp)]
  simp only [List.zipWith_cons_cons, List.zipWith_nil_right, List.map_cons,
    List.map_nil, List.sum_cons, List.sum_nil]
  norm_num [Real.sqrt_one]

theorem cosineSim_orth : cosineSim [(1 : ℝ), 0] [(0 : ℝ), 1] = 0 := by
  rw [cosineSim]
  rw [if_neg (by simp)]
  simp only [List.zipWith_cons_cons, List.zipWith_nil_right, List.map_cons,
    List.map_nil, List.sum_cons, List.sum_nil]
  norm_num

theorem scoreGtB_01 : scoreGtB ((0 : ℝ), 1) ((1 : ℝ), 0) = false := by
  simp only [scoreGtB]
  exact decide_eq_false (by norm_num)

theorem scoreGtB_12 : scoreGtB ((1 : ℝ), 2) ((0 : ℝ), 1) = true := by
  simp only [scoreGtB]
  exact decide_eq_true (by norm_num)

theorem scoreGtB_02 : scoreGtB ((1 : ℝ), 0) ((1 : ℝ), 2) = false := by
  simp only [scoreGtB]
  exact decide_eq_false (by norm_num)

/-- C1 fails on the code: `search` ranks with `std::partial_sort`, which is
not a stable selection.  On a three-entry store where entries 0 and 2 both
score `1` against the query and entry 1 scores `0`, `search(query, 2)`
returns the two top chunks as `[doc 2, doc 0]` — the tied entries in
reversed insertion order — where the claim requires `[doc 0, doc 2]`. -/
theorem search_ties_not_insertion_order :
    search [⟨⟨mkId 0, [], ['A']⟩, [1, 0]⟩,
            ⟨⟨mkId 1, [], ['B']⟩, [0, 1]⟩,
            ⟨⟨mkId 2, [], ['C']⟩, [1, 0]⟩] [1, 0] 2
        = .ok [⟨mkId 2, [], ['C']⟩, ⟨mkId 0, [], ['A']⟩]
      ∧ ([⟨mkId 2, [], ['C']⟩, ⟨mkId 0, [], ['A']⟩] : List Document)
          ≠ [⟨mkId 0, [], ['A']⟩, ⟨mkId 2, [], ['C']⟩] := by
  constructor
  · have hscored : (List.range
        ([⟨⟨mkId 0, [], ['A']⟩, [1, 0]⟩,
          ⟨⟨mkId 1, [], ['B']⟩, [0, 1]⟩,
          ⟨⟨mkId 2, [], ['C']⟩, [1, 0]⟩] : List (IndexEntry ℝ)).length).map
          (fun i => (cosineSim [1, 0]
            (([⟨⟨mkId 0, [], ['A']⟩, [1, 0]⟩,
               ⟨⟨mkId 1, [], ['B']⟩, [0, 1]⟩,
               ⟨⟨mkId 2, [], ['C']⟩, [1, 0]⟩] : List (IndexEntry ℝ)).getD i
                default).embedding, i))
        = [((1 : ℝ), 0), ((0 : ℝ), 1), ((1 : ℝ), 2)] := by
      simp [List.range_succ, cosineSim_ones, cosineSim_orth]
    simp only [search, List.isEmpty_cons, Bool.false_eq_true, if_false, hscored]
    rw [show (min 2 ([⟨⟨mkId 0, [], ['A']⟩, [1, 0]⟩,
          ⟨⟨mkId 1, [], ['B']⟩, [0, 1]⟩,
          ⟨⟨mkId 2, [], ['C']⟩, [1, 0]⟩] : List (IndexEntry ℝ)).length) = 2 from rfl]
    rw [topKSort_three scoreGtB ((1 : ℝ), 0) ((0 : ℝ), 1) ((1 : ℝ), 2)
      scoreGtB_01 scoreGtB_12 scoreGtB_02]
    simp [List.getD]
  · decide

end SentraAI
